import Mathlib

set_option maxHeartbeats 1000000

/-!
Shallow embedding of the quantum-simulator crate (src/: complex.rs,
matrix.rs, ket.rs, gate.rs, registers.rs, computer.rs) and proofs about it.

Modelling conventions:
* `f64` values are modelled as rationals `ℚ`.
* a Rust `panic!`/failed `assert!` is modelled by an `Option` result `none`;
  `u32` arithmetic overflow (which panics in debug builds and makes the
  subsequent range assert fail in release builds) is likewise `none`.
* the single uniform random draw inside `QuantumRegister::collapse` is an
  explicit `sample` argument.
-/

namespace Quantum

/-- Complex number with two 64-bit float parts (complex.rs `Complex`),
the float parts modelled as rationals. -/
structure Comp where
  re : ℚ
  im : ℚ
deriving DecidableEq, Repr

namespace Comp

/-- complex.rs `Complex::zero`. -/
def zero : Comp := ⟨0, 0⟩

/-- complex.rs `Complex::one`. -/
def one : Comp := ⟨1, 0⟩

/-- complex.rs `Complex::norm_sqr`: re² + im². -/
def norm_sqr (z : Comp) : ℚ := z.re * z.re + z.im * z.im

/-- complex.rs `impl Add for Complex`. -/
def add (x y : Comp) : Comp := ⟨x.re + y.re, x.im + y.im⟩

/-- complex.rs `impl Mul for Complex`. -/
def mul (x y : Comp) : Comp :=
  ⟨x.re * y.re - x.im * y.im, x.re * y.im + x.im * y.re⟩

end Comp

instance : Add Comp := ⟨Comp.add⟩

instance : Mul Comp := ⟨Comp.mul⟩

instance : Zero Comp := ⟨Comp.zero⟩

/-- Largest value of a Rust `u32`. -/
def u32Max : Nat := 4294967295

/-- registers.rs `ClassicalRegister`: an ordered sequence of bits. -/
abbrev ClassicalRegister := List Nat

namespace ClassicalRegister

/-- registers.rs `ClassicalRegister::new`: asserts every entry is 0 or 1. -/
def new (bits : List Nat) : Option ClassicalRegister :=
  if bits.all (fun b => b == 0 || b == 1) then some bits else none

/-- `2u32.pow(e)`: the u32 power, whose overflow (for e ≥ 32) panics in debug
builds; in release builds it wraps to 0, making the caller's range assert
fail instead, so the overall effect is a failure either way. -/
def pow2u32 (e : Nat) : Option Nat :=
  if 2 ^ e ≤ u32Max then some (2 ^ e) else none

/-- The loop of registers.rs `ClassicalRegister::from_state` (lines 198-209):
iteration i handles pos = width-i-1 and prepends a bit (`bits.insert(0, _)`),
so the recursion peels off the most significant position n-1 first, with the
bits accumulated so far as second argument. -/
def fromStateLoop : Nat → ClassicalRegister → Nat → ClassicalRegister
  | 0, bits, _ => bits
  | n + 1, bits, remaining =>
    if 2 ^ n ≤ remaining then fromStateLoop n (1 :: bits) (remaining - 2 ^ n)
    else fromStateLoop n (0 :: bits) remaining

/-- registers.rs `ClassicalRegister::from_state`: asserts
`state < 2u32.pow(width)` (the power itself fails for width ≥ 32), then runs
the bit-building loop. -/
def from_state (width state : Nat) : Option ClassicalRegister :=
  match pow2u32 width with
  | none => none
  | some v => if state < v then some (fromStateLoop width [] state) else none

/-- The loop of registers.rs `ClassicalRegister::state` (lines 249-255) over
`Nat`: at list position pos, a nonzero bit adds 2^pos. -/
def stateLoop : Nat → Nat → ClassicalRegister → Nat
  | _, acc, [] => acc
  | pos, acc, b :: rest =>
    stateLoop (pos + 1) (if b ≠ 0 then acc + 2 ^ pos else acc) rest

/-- registers.rs `ClassicalRegister::state`, idealized over `Nat`. -/
def stateNat (bits : ClassicalRegister) : Nat := stateLoop 0 0 bits

/-- The `state` loop with u32 arithmetic: both `2u32.pow(pos)` and the
running addition fail on overflow. -/
def stateLoopU32 : Nat → Nat → ClassicalRegister → Option Nat
  | _, acc, [] => some acc
  | pos, acc, b :: rest =>
    if b ≠ 0 then
      match pow2u32 pos with
      | none => none
      | some v =>
        if acc + v ≤ u32Max then stateLoopU32 (pos + 1) (acc + v) rest else none
    else stateLoopU32 (pos + 1) acc rest

/-- registers.rs `ClassicalRegister::state` with u32 overflow modelled. -/
def stateU32 (bits : ClassicalRegister) : Option Nat := stateLoopU32 0 0 bits

/-- registers.rs `ClassicalRegister::width`. -/
def width (bits : ClassicalRegister) : Nat := bits.length

/-- Head-first restatement of the `state` encoding: the leftmost bit is least
significant. -/
def polyval : ClassicalRegister → Nat
  | [] => 0
  | b :: rest => (if b ≠ 0 then 1 else 0) + 2 * polyval rest

theorem stateLoop_eq_polyval (bits : ClassicalRegister) :
    ∀ pos acc, stateLoop pos acc bits = acc + 2 ^ pos * polyval bits := by
  induction bits with
  | nil => intro pos acc; simp [stateLoop, polyval]
  | cons b rest ih =>
    intro pos acc
    simp only [stateLoop, polyval, ih (pos + 1)]
    by_cases hb : b ≠ 0 <;> simp [hb] <;> ring

theorem stateNat_eq_polyval (bits : ClassicalRegister) :
    stateNat bits = polyval bits := by
  simpa using stateLoop_eq_polyval bits 0 0

theorem polyval_lt (bits : ClassicalRegister) :
    polyval bits < 2 ^ bits.length := by
  induction bits with
  | nil => simp [polyval]
  | cons b rest ih =>
    simp only [polyval, List.length_cons, pow_succ]
    by_cases hb : b ≠ 0 <;> simp [hb] <;> omega

theorem polyval_append_singleton (ys : ClassicalRegister) (b : Nat) :
    polyval (ys ++ [b]) =
      polyval ys + (if b ≠ 0 then 1 else 0) * 2 ^ ys.length := by
  induction ys with
  | nil => simp [polyval]
  | cons y rest ih =>
    simp only [List.cons_append, polyval, List.length_cons, pow_succ, List.append_eq]
    rw [ih]
    ring

theorem fromStateLoop_polyval :
    ∀ (n : Nat) (acc : ClassicalRegister) (r : Nat), r < 2 ^ n →
      polyval (fromStateLoop n acc r) = r + 2 ^ n * polyval acc := by
  intro n
  induction n with
  | zero =>
    intro acc r hr
    interval_cases r
    simp [fromStateLoop]
  | succ n ih =>
    intro acc r hr
    simp only [fromStateLoop]
    by_cases h : 2 ^ n ≤ r
    · rw [if_pos h, ih (1 :: acc) (r - 2 ^ n) (by omega)]
      have e : 2 ^ n * polyval (1 :: acc) = 2 ^ n + 2 ^ (n + 1) * polyval acc := by
        simp only [polyval, ne_eq, one_ne_zero, not_false_eq_true, if_true]
        ring
      omega
    · rw [if_neg h, ih (0 :: acc) r (by omega)]
      have e : 2 ^ n * polyval (0 :: acc) = 2 ^ (n + 1) * polyval acc := by
        simp only [polyval, ne_eq, not_true_eq_false, if_false]
        ring
      omega

theorem fromStateLoop_length :
    ∀ (n : Nat) (acc : ClassicalRegister) (r : Nat),
      (fromStateLoop n acc r).length = n + acc.length := by
  intro n
  induction n with
  | zero => intro acc r; simp [fromStateLoop]
  | succ n ih =>
    intro acc r
    simp only [fromStateLoop]
    by_cases h : 2 ^ n ≤ r <;> simp [h, ih] <;> omega

theorem fromStateLoop_bits :
    ∀ (n : Nat) (acc : ClassicalRegister) (r : Nat),
      (∀ b ∈ acc, b = 0 ∨ b = 1) →
      ∀ b ∈ fromStateLoop n acc r, b = 0 ∨ b = 1 := by
  intro n
  induction n with
  | zero => intro acc r hacc; simpa [fromStateLoop] using hacc
  | succ n ih =>
    intro acc r hacc
    simp only [fromStateLoop]
    by_cases h : 2 ^ n ≤ r
    · rw [if_pos h]
      refine ih (1 :: acc) (r - 2 ^ n) ?_
      intro b hb
      rcases List.mem_cons.mp hb with h1 | h2
      · right; exact h1
      · exact hacc b h2
    · rw [if_neg h]
      refine ih (0 :: acc) r ?_
      intro b hb
      rcases List.mem_cons.mp hb with h1 | h2
      · left; exact h1
      · exact hacc b h2

theorem fromStateLoop_unique :
    ∀ bits : ClassicalRegister, (∀ b ∈ bits, b = 0 ∨ b = 1) →
      ∀ acc, fromStateLoop bits.length acc (polyval bits) = bits ++ acc := by
  intro bits
  induction bits using List.reverseRecOn with
  | nil => intro _ acc; simp [fromStateLoop, polyval]
  | append_singleton ys b ih =>
    intro hbits acc
    have hb : b = 0 ∨ b = 1 := hbits b (by simp)
    have hys : ∀ x ∈ ys, x = 0 ∨ x = 1 := fun x hx => hbits x (by simp [hx])
    have hlt : polyval ys < 2 ^ ys.length := polyval_lt ys
    rw [polyval_append_singleton]
    have hlen : (ys ++ [b]).length = ys.length + 1 := by simp
    rw [hlen]
    rcases hb with rfl | rfl
    · simp only [ne_eq, not_true_eq_false, if_false, zero_mul, add_zero]
      simp only [fromStateLoop]
      rw [if_neg (by omega)]
      rw [ih hys (0 :: acc)]
      simp
    · simp only [ne_eq, one_ne_zero, not_false_eq_true, if_true, one_mul]
      simp only [fromStateLoop]
      rw [if_pos (by omega), Nat.add_sub_cancel]
      rw [ih hys (1 :: acc)]
      simp

theorem stateLoopU32_eq :
    ∀ (bits : ClassicalRegister) (pos acc : Nat),
      pos + bits.length ≤ 32 → acc < 2 ^ pos →
      stateLoopU32 pos acc bits = some (stateLoop pos acc bits) := by
  intro bits
  induction bits with
  | nil => intro pos acc _ _; simp [stateLoopU32, stateLoop]
  | cons b rest ih =>
    intro pos acc hlen hacc
    have hpos : pos ≤ 31 := by simp at hlen; omega
    have hpow : (2:Nat) ^ pos ≤ 2 ^ 31 := Nat.pow_le_pow_right (by omega) hpos
    have h31 : (2:Nat) ^ 31 = 2147483648 := by norm_num
    simp only [stateLoopU32, stateLoop]
    by_cases hb : b ≠ 0
    · rw [if_pos hb, if_pos hb]
      have hv : pow2u32 pos = some (2 ^ pos) := by
        unfold pow2u32
        rw [if_pos (by simp only [u32Max]; omega)]
      rw [hv]
      dsimp only
      rw [if_pos (by simp only [u32Max]; omega)]
      exact ih (pos + 1) (acc + 2 ^ pos) (by simp at hlen ⊢; omega)
        (by rw [pow_succ]; omega)
    · rw [if_neg hb, if_neg hb]
      exact ih (pos + 1) acc (by simp at hlen ⊢; omega)
        (by rw [pow_succ]; omega)

theorem stateU32_eq (bits : ClassicalRegister) (h : bits.length ≤ 32) :
    stateU32 bits = some (stateNat bits) := by
  exact stateLoopU32_eq bits 0 0 (by simpa using h) (by norm_num)

theorem from_state_pow_ok {w : Nat} (hw : w ≤ 31) :
    pow2u32 w = some (2 ^ w) := by
  unfold pow2u32
  rw [if_pos]
  have : (2:Nat) ^ w ≤ 2 ^ 31 := Nat.pow_le_pow_right (by omega) hw
  simp only [u32Max]
  omega

theorem from_state_some {w s : Nat} (hw : w ≤ 31) (hs : s < 2 ^ w) :
    from_state w s = some (fromStateLoop w [] s) := by
  unfold from_state
  rw [from_state_pow_ok hw]
  exact if_pos hs

theorem stateNat_fromStateLoop {w s : Nat} (hs : s < 2 ^ w) :
    stateNat (fromStateLoop w [] s) = s := by
  rw [stateNat_eq_polyval, fromStateLoop_polyval w [] s hs]
  simp [polyval]

theorem length_fromStateLoop (w s : Nat) :
    (fromStateLoop w [] s).length = w := by
  simpa using fromStateLoop_length w [] s

end ClassicalRegister

/-- Claim C3: for every width w ≤ 10 and state s < 2^w,
`ClassicalRegister::from_state(w, s).state() == s`; the produced register is
the unique 0/1 bit sequence of width w under the reversed-lexicographic
encoding (leftmost bit least significant); and `from_state` fails unless
s < 2^w. -/
theorem C3_from_state_round_trip (w s : Nat) (hw : w ≤ 10) :
    (s < 2 ^ w →
      ∃ bits, ClassicalRegister.from_state w s = some bits ∧
        ClassicalRegister.stateNat bits = s ∧
        ClassicalRegister.stateU32 bits = some s ∧
        ClassicalRegister.width bits = w ∧
        (∀ b ∈ bits, b = 0 ∨ b = 1) ∧
        (∀ bits2 : ClassicalRegister, (∀ b ∈ bits2, b = 0 ∨ b = 1) →
          ClassicalRegister.width bits2 = w →
          ClassicalRegister.stateNat bits2 = s → bits2 = bits)) ∧
    (2 ^ w ≤ s → ClassicalRegister.from_state w s = none) := by
  constructor
  · intro hs
    refine ⟨ClassicalRegister.fromStateLoop w [] s,
      ClassicalRegister.from_state_some (by omega) hs, ?_, ?_, ?_, ?_, ?_⟩
    · exact ClassicalRegister.stateNat_fromStateLoop hs
    · rw [ClassicalRegister.stateU32_eq _
        (by rw [ClassicalRegister.length_fromStateLoop]; omega)]
      rw [ClassicalRegister.stateNat_fromStateLoop hs]
    · exact ClassicalRegister.length_fromStateLoop w s
    · exact ClassicalRegister.fromStateLoop_bits w [] s (by simp)
    · intro bits2 hb2 hlen2 hstate2
      have h := ClassicalRegister.fromStateLoop_unique bits2 hb2 []
      rw [List.append_nil] at h
      rw [ClassicalRegister.width] at hlen2
      rw [ClassicalRegister.stateNat_eq_polyval] at hstate2
      rw [hlen2, hstate2] at h
      exact h.symm
  · intro hge
    unfold ClassicalRegister.from_state
    rw [ClassicalRegister.from_state_pow_ok (by omega)]
    exact if_neg (by omega)

theorem C3_witness :
    ∃ bits, ClassicalRegister.from_state 4 10 = some bits ∧
      ClassicalRegister.stateNat bits = 10 ∧
      ClassicalRegister.stateU32 bits = some 10 ∧
      ClassicalRegister.width bits = 4 ∧
      (∀ b ∈ bits, b = 0 ∨ b = 1) ∧
      (∀ bits2 : ClassicalRegister, (∀ b ∈ bits2, b = 0 ∨ b = 1) →
        ClassicalRegister.width bits2 = 4 →
        ClassicalRegister.stateNat bits2 = 10 → bits2 = bits) :=
  (C3_from_state_round_trip 4 10 (by decide)).1 (by decide)

/-- Claim C9, amended: `from_state(width, state)` succeeds for every width
≤ 31 with state < 2^width, and `state()` succeeds (in u32 arithmetic) on
every register of width ≤ 32; at width exactly 32, `from_state` fails for
every state because its range assert computes `2u32.pow(32)`, which
overflows (see the counterexample theorem). -/
theorem C9_width_limits :
    (∀ w s : Nat, w ≤ 31 → s < 2 ^ w →
      ∃ bits, ClassicalRegister.from_state w s = some bits ∧
        ClassicalRegister.width bits = w ∧
        ClassicalRegister.stateU32 bits = some s) ∧
    (∀ bits : ClassicalRegister, bits.length ≤ 32 →
      ClassicalRegister.stateU32 bits = some (ClassicalRegister.stateNat bits)) := by
  constructor
  · intro w s hw hs
    refine ⟨ClassicalRegister.fromStateLoop w [] s,
      ClassicalRegister.from_state_some hw hs, ClassicalRegister.length_fromStateLoop w s, ?_⟩
    rw [ClassicalRegister.stateU32_eq _
      (by rw [ClassicalRegister.length_fromStateLoop]; omega)]
    rw [ClassicalRegister.stateNat_fromStateLoop hs]
  · intro bits h
    exact ClassicalRegister.stateU32_eq bits h

theorem C9_witness :
    (∃ bits, ClassicalRegister.from_state 31 5 = some bits ∧
      ClassicalRegister.width bits = 31 ∧
      ClassicalRegister.stateU32 bits = some 5) ∧
    ClassicalRegister.stateU32 [1, 1] = some (ClassicalRegister.stateNat [1, 1]) :=
  ⟨C9_width_limits.1 31 5 (by decide) (by decide),
   C9_width_limits.2 [1, 1] (by decide)⟩

/-- Claim C9, counterexample: the claim as stated promises success for every
width ≤ 32, but at width 32 (a width the claim covers, with state 0 < 2^32)
`from_state` fails: `2u32.pow(32)` overflows the u32 in the range assert. -/
theorem C9_counterexample : ClassicalRegister.from_state 32 0 = none := by
  decide

theorem Comp.add_def (x y : Comp) : x + y = ⟨x.re + y.re, x.im + y.im⟩ := rfl

theorem Comp.mul_def (x y : Comp) :
    x * y = ⟨x.re * y.re - x.im * y.im, x.re * y.im + x.im * y.re⟩ := rfl

theorem Comp.zero_def : (0 : Comp) = ⟨0, 0⟩ := rfl

theorem Comp.add_assoc (x y z : Comp) : x + y + z = x + (y + z) := by
  simp only [Comp.add_def, Comp.mk.injEq]
  constructor <;> ring

theorem Comp.add_zero (x : Comp) : x + 0 = x := by
  simp [Comp.add_def, Comp.zero_def]

theorem Comp.zero_add (x : Comp) : 0 + x = x := by
  simp [Comp.add_def, Comp.zero_def]

/-- matrix.rs `MAX_SIZE`. -/
def MAX_SIZE : Nat := 32

/-- matrix.rs `Matrix`: the active `size` plus a flat buffer of `MAX_SIZE²`
complex elements addressed `row * MAX_SIZE + col`; the flat array is
modelled as a function from the flat index.  The source constructors all
assert `size ≤ MAX_SIZE`, so theorems carry that bound as a hypothesis. -/
structure Matrix where
  size : Nat
  elements : Nat → Comp

namespace Matrix

/-- matrix.rs `Matrix::new`: the zero-initialized matrix (its
`size ≤ MAX_SIZE` assert cannot fire at the in-file call sites, whose sizes
come from an existing matrix). -/
def new (size : Nat) : Matrix := ⟨size, fun _ => Comp.zero⟩

/-- matrix.rs `Matrix::get`. -/
def get (m : Matrix) (i j : Nat) : Comp := m.elements (i * MAX_SIZE + j)

/-- matrix.rs `Matrix::set`. -/
def set (m : Matrix) (i j : Nat) (value : Comp) : Matrix :=
  ⟨m.size, Function.update m.elements (i * MAX_SIZE + j) value⟩

theorem size_set (m : Matrix) (i j : Nat) (v : Comp) : (m.set i j v).size = m.size := rfl

theorem get_new (size i j : Nat) : (new size).get i j = Comp.zero := rfl

theorem get_set (m : Matrix) (i j : Nat) (v : Comp) (i2 j2 : Nat)
    (hj : j < 32) (hj2 : j2 < 32) :
    (m.set i j v).get i2 j2 = if i2 = i ∧ j2 = j then v else m.get i2 j2 := by
  unfold get set MAX_SIZE
  simp only
  rw [Function.update_apply]
  refine if_congr ?_ rfl rfl
  constructor <;> intro h  <;> omega

/-- matrix.rs `Matrix::embed` (lines 89-99): asserts the block fits, then
for x, y in 0..other.size sets `self[(i+x, i+y)] = other[(x, y)]`.  Note
that line 96 of the source writes to column `i + y`, not `j + y`. -/
def embed (m : Matrix) (other : Matrix) (i j : Nat) : Option Matrix :=
  if i + other.size ≤ m.size ∧ j + other.size ≤ m.size then
    some ((List.range other.size).foldl (fun acc x =>
      (List.range other.size).foldl (fun acc2 y =>
        acc2.set (i + x) (i + y) (other.get x y)) acc) m)
  else none

end Matrix

/-- Claim C2, code evaluation at the failing input: embed the 1×1 matrix
[one] into the zero 2×2 matrix with top-left corner (i, j) = (0, 1).  The
claim (and the embed doc comment) require the value to land at (0, 1) with
(0, 0) unchanged, but the code writes column `i + y` instead of `j + y`
(matrix.rs line 96), so the value lands at (0, 0) and (0, 1) stays zero. -/
theorem C2_embed_failing_input :
    (Matrix.embed (Matrix.new 2) ((Matrix.new 1).set 0 0 Comp.one) 0 1).map
      (fun r => (r.get 0 0, r.get 0 1)) = some (Comp.one, Comp.zero) := by
  decide

namespace Matrix

/-- The inner loop of matrix.rs `permute_rows` (lines 115-117): copy row
source_i of src into row target_i of the accumulator, column by column. -/
def writeRow (src acc : Matrix) (si ti : Nat) : Matrix :=
  (List.range src.size).foldl (fun a j => a.set ti j (src.get si j)) acc

theorem foldl_set_row_get (f : Nat → Comp) (ti : Nat) :
    ∀ (cols : List Nat), (∀ c ∈ cols, c < 32) →
      ∀ (a : Matrix) (i j : Nat), j < 32 →
      (cols.foldl (fun acc c => acc.set ti c (f c)) a).get i j =
        if i = ti ∧ j ∈ cols then f j else a.get i j := by
  intro cols
  induction cols with
  | nil => intro _ a i j hj; simp
  | cons c cs ih =>
    intro hc a i j hj
    simp only [List.foldl_cons]
    rw [ih (fun x hx => hc x (List.mem_cons_of_mem c hx)) _ i j hj]
    rw [get_set a ti c (f c) i j (hc c (List.mem_cons_self c cs)) hj]
    by_cases h1 : i = ti
    · by_cases h2 : j ∈ cs
      · simp [h1, h2]
      · by_cases h3 : j = c
        · subst h3; simp [h1, h2]
        · simp [h1, h2, h3]
    · simp [h1]

theorem writeRow_get (src acc : Matrix) (si ti i j : Nat)
    (hs : src.size ≤ 32) (hj : j < 32) :
    (writeRow src acc si ti).get i j =
      if i = ti ∧ j < src.size then src.get si j else acc.get i j := by
  unfold writeRow
  rw [foldl_set_row_get (fun c => src.get si c) ti (List.range src.size)
      (fun c hcm => by have := List.mem_range.mp hcm; omega) acc i j hj]
  simp [List.mem_range]

/-- The outer loop of matrix.rs `permute_rows` (lines 114-118):
`for (source_i, target_i) in permutation.iter().enumerate()` copy row
source_i to row target_i; the first numeric argument is the running source
index produced by enumerate. -/
def applyRowWrites (src : Matrix) : Nat → List Nat → Matrix → Matrix
  | _, [], acc => acc
  | si, ti :: rest, acc => applyRowWrites src (si + 1) rest (writeRow src acc si ti)

theorem applyRowWrites_get_not_mem (src : Matrix) (hs : src.size ≤ 32) :
    ∀ (perm : List Nat) (si : Nat) (acc : Matrix) (i j : Nat), j < 32 → i ∉ perm →
      (applyRowWrites src si perm acc).get i j = acc.get i j := by
  intro perm
  induction perm with
  | nil => intro si acc i j hj _; rfl
  | cons t rest ih =>
    intro si acc i j hj him
    have hit : i ≠ t := fun h => him (h ▸ List.mem_cons_self t rest)
    have hirest : i ∉ rest := fun h => him (List.mem_cons_of_mem t h)
    show (applyRowWrites src (si + 1) rest (writeRow src acc si t)).get i j = acc.get i j
    rw [ih (si + 1) (writeRow src acc si t) i j hj hirest]
    rw [writeRow_get src acc si t i j hs hj]
    simp [hit]

theorem applyRowWrites_get_target (src : Matrix) (hs : src.size ≤ 32) :
    ∀ (perm : List Nat), perm.Nodup →
      ∀ k, k < perm.length →
      ∀ (si : Nat) (acc : Matrix) (j : Nat), j < 32 →
      (applyRowWrites src si perm acc).get (perm.getD k 0) j =
        if j < src.size then src.get (si + k) j
        else acc.get (perm.getD k 0) j := by
  intro perm
  induction perm with
  | nil => intro _ k hk; simp at hk
  | cons t rest ih =>
    intro hnd k hk si acc j hj
    have hndr : rest.Nodup := (List.nodup_cons.mp hnd).2
    have htni : t ∉ rest := (List.nodup_cons.mp hnd).1
    cases k with
    | zero =>
      show (applyRowWrites src (si + 1) rest (writeRow src acc si t)).get
          ((t :: rest).getD 0 0) j = _
      have hg : (t :: rest).getD 0 0 = t := rfl
      rw [hg]
      rw [applyRowWrites_get_not_mem src hs rest (si + 1) _ t j hj htni]
      rw [writeRow_get src acc si t t j hs hj]
      simp
    | succ k =>
      have hg : (t :: rest).getD (k + 1) 0 = rest.getD k 0 := rfl
      have hk2 : k < rest.length := by simpa using hk
      have hmem : rest.getD k 0 ∈ rest := by
        rw [List.getD_eq_getElem rest 0 hk2]
        exact List.getElem_mem hk2
      have hne : rest.getD k 0 ≠ t := fun h => htni (h ▸ hmem)
      show (applyRowWrites src (si + 1) rest (writeRow src acc si t)).get
          ((t :: rest).getD (k + 1) 0) j = _
      rw [hg]
      rw [ih hndr k hk2 (si + 1) (writeRow src acc si t) j hj]
      rw [writeRow_get src acc si t (rest.getD k 0) j hs hj]
      have harith : si + 1 + k = si + (k + 1) := by omega
      rw [harith]
      by_cases hjs : j < src.size
      · rw [if_pos hjs, if_pos hjs]
      · rw [if_neg hjs, if_neg hjs, if_neg (fun hcon => hjs hcon.2)]

/-- matrix.rs `Matrix::permutation_valid` (lines 146-156): sort a copy of
the permutation and check the result is exactly 0, 1, ..., len-1. -/
def permutation_valid (permutation : List Nat) : Bool :=
  decide (List.insertionSort (· ≤ ·) permutation = List.range permutation.length)

theorem permutation_valid_iff (perm : List Nat) :
    permutation_valid perm = true ↔ List.Perm perm (List.range perm.length) := by
  unfold permutation_valid
  rw [decide_eq_true_eq]
  constructor
  · intro h
    have hp := List.perm_insertionSort (· ≤ ·) perm
    rw [h] at hp
    exact hp.symm
  · intro h
    refine List.eq_of_perm_of_sorted ((List.perm_insertionSort (· ≤ ·) perm).trans h)
      (List.sorted_insertionSort (· ≤ ·) perm) ?_
    exact List.pairwise_le_range _

/-- matrix.rs `Matrix::permute_rows` (lines 108-121): asserts the
permutation has length size and is valid, then copies each row source_i of
self to row permutation[source_i] of a fresh zero matrix. -/
def permute_rows (m : Matrix) (permutation : List Nat) : Option Matrix :=
  if m.size = permutation.length ∧ permutation_valid permutation then
    some (applyRowWrites m 0 permutation (new m.size))
  else none

/-- The inner loop of matrix.rs `permute_columns` (lines 136-140). -/
def writeCol (src acc : Matrix) (sj tj : Nat) : Matrix :=
  (List.range src.size).foldl (fun a i => a.set i tj (src.get i sj)) acc

theorem foldl_set_col_get (f : Nat → Comp) (tj : Nat) (htj : tj < 32) :
    ∀ (rows : List Nat) (a : Matrix) (i j : Nat), j < 32 →
      (rows.foldl (fun acc r => acc.set r tj (f r)) a).get i j =
        if j = tj ∧ i ∈ rows then f i else a.get i j := by
  intro rows
  induction rows with
  | nil => intro a i j hj; simp
  | cons r rs ih =>
    intro a i j hj
    simp only [List.foldl_cons]
    rw [ih _ i j hj]
    rw [get_set a r tj (f r) i j htj hj]
    by_cases h1 : j = tj
    · by_cases h2 : i ∈ rs
      · simp [h1, h2]
      · by_cases h3 : i = r
        · subst h3; simp [h1, h2]
        · simp [h1, h2, h3]
    · simp [h1]

theorem writeCol_get (src acc : Matrix) (sj tj i j : Nat)
    (htj : tj < 32) (hj : j < 32) :
    (writeCol src acc sj tj).get i j =
      if j = tj ∧ i < src.size then src.get i sj else acc.get i j := by
  unfold writeCol
  rw [foldl_set_col_get (fun r => src.get r sj) tj htj (List.range src.size) acc i j hj]
  simp [List.mem_range]

/-- The outer loop of matrix.rs `permute_columns` (lines 130-143). -/
def applyColWrites (src : Matrix) : Nat → List Nat → Matrix → Matrix
  | _, [], acc => acc
  | sj, tj :: rest, acc => applyColWrites src (sj + 1) rest (writeCol src acc sj tj)

theorem applyColWrites_get_not_mem (src : Matrix) :
    ∀ (perm : List Nat), (∀ t ∈ perm, t < 32) →
      ∀ (sj : Nat) (acc : Matrix) (i j : Nat), j < 32 → j ∉ perm →
      (applyColWrites src sj perm acc).get i j = acc.get i j := by
  intro perm
  induction perm with
  | nil => intro _ sj acc i j hj _; rfl
  | cons t rest ih =>
    intro hlt sj acc i j hj hjm
    have hjt : j ≠ t := fun h => hjm (h ▸ List.mem_cons_self t rest)
    have hjrest : j ∉ rest := fun h => hjm (List.mem_cons_of_mem t h)
    show (applyColWrites src (sj + 1) rest (writeCol src acc sj t)).get i j = acc.get i j
    rw [ih (fun x hx => hlt x (List.mem_cons_of_mem t hx)) (sj + 1)
        (writeCol src acc sj t) i j hj hjrest]
    rw [writeCol_get src acc sj t i j (hlt t (List.mem_cons_self t rest)) hj]
    simp [hjt]

theorem applyColWrites_get_target (src : Matrix) :
    ∀ (perm : List Nat), perm.Nodup → (∀ t ∈ perm, t < 32) →
      ∀ k, k < perm.length →
      ∀ (sj : Nat) (acc : Matrix) (i : Nat),
      (applyColWrites src sj perm acc).get i (perm.getD k 0) =
        if i < src.size then src.get i (sj + k)
        else acc.get i (perm.getD k 0) := by
  intro perm
  induction perm with
  | nil => intro _ _ k hk; simp at hk
  | cons t rest ih =>
    intro hnd hlt k hk sj acc i
    have hndr : rest.Nodup := (List.nodup_cons.mp hnd).2
    have htni : t ∉ rest := (List.nodup_cons.mp hnd).1
    have ht32 : t < 32 := hlt t (List.mem_cons_self t rest)
    have hrest32 : ∀ x ∈ rest, x < 32 := fun x hx => hlt x (List.mem_cons_of_mem t hx)
    cases k with
    | zero =>
      show (applyColWrites src (sj + 1) rest (writeCol src acc sj t)).get i
          ((t :: rest).getD 0 0) = _
      have hg : (t :: rest).getD 0 0 = t := rfl
      rw [hg]
      rw [applyColWrites_get_not_mem src rest hrest32 (sj + 1) _ i t ht32 htni]
      rw [writeCol_get src acc sj t i t ht32 ht32]
      simp
    | succ k =>
      have hg : (t :: rest).getD (k + 1) 0 = rest.getD k 0 := rfl
      have hk2 : k < rest.length := by simpa using hk
      have hmem : rest.getD k 0 ∈ rest := by
        rw [List.getD_eq_getElem rest 0 hk2]
        exact List.getElem_mem hk2
      have hne : rest.getD k 0 ≠ t := fun h => htni (h ▸ hmem)
      show (applyColWrites src (sj + 1) rest (writeCol src acc sj t)).get i
          ((t :: rest).getD (k + 1) 0) = _
      rw [hg]
      rw [ih hndr hrest32 k hk2 (sj + 1) (writeCol src acc sj t) i]
      rw [writeCol_get src acc sj t i (rest.getD k 0) ht32 (hrest32 _ hmem)]
      have harith : sj + 1 + k = sj + (k + 1) := by omega
      rw [harith]
      by_cases his : i < src.size
      · rw [if_pos his, if_pos his]
      · rw [if_neg his, if_neg his, if_neg (fun hcon => his hcon.2)]

/-- matrix.rs `Matrix::permute_columns` (lines 130-143). -/
def permute_columns (m : Matrix) (permutation : List Nat) : Option Matrix :=
  if m.size = permutation.length ∧ permutation_valid permutation then
    some (applyColWrites m 0 permutation (new m.size))
  else none

theorem permute_rows_some (m : Matrix) (perm : List Nat) (r : Matrix)
    (hr : m.permute_rows perm = some r) :
    m.size = perm.length ∧ permutation_valid perm = true ∧
      r = applyRowWrites m 0 perm (new m.size) := by
  unfold permute_rows at hr
  by_cases h : m.size = perm.length ∧ permutation_valid perm
  · rw [if_pos h] at hr
    exact ⟨h.1, h.2, (Option.some.inj hr).symm⟩
  · rw [if_neg h] at hr
    cases hr

theorem permute_columns_some (m : Matrix) (perm : List Nat) (r : Matrix)
    (hr : m.permute_columns perm = some r) :
    m.size = perm.length ∧ permutation_valid perm = true ∧
      r = applyColWrites m 0 perm (new m.size) := by
  unfold permute_columns at hr
  by_cases h : m.size = perm.length ∧ permutation_valid perm
  · rw [if_pos h] at hr
    exact ⟨h.1, h.2, (Option.some.inj hr).symm⟩
  · rw [if_neg h] at hr
    cases hr

/-- The zero-padding invariant of matrix.rs (spec §3): every entry outside
the active size×size block of the MAX_SIZE×MAX_SIZE buffer is zero. -/
def tailZero (m : Matrix) : Prop :=
  ∀ i, i < 32 → ∀ j, j < 32 → (m.size ≤ i ∨ m.size ≤ j) → m.get i j = Comp.zero

instance (m : Matrix) : Decidable (tailZero m) := by
  unfold tailZero
  infer_instance

end Matrix

/-- The permutation of 0..n that swaps a and b and fixes everything else
(the transposition input of claim C6). -/
def transposePerm (n a b : Nat) : List Nat :=
  (List.range n).map (fun k => if k = a then b else if k = b then a else k)

theorem transposePerm_length (n a b : Nat) : (transposePerm n a b).length = n := by
  simp [transposePerm]

theorem transposePerm_getD (n a b k : Nat) (hk : k < n) :
    (transposePerm n a b).getD k 0 =
      if k = a then b else if k = b then a else k := by
  unfold transposePerm
  rw [List.getD_eq_getElem _ 0 (by simpa using hk)]
  simp

theorem transposePerm_lt (n a b : Nat) (ha : a < n) (hb : b < n) :
    ∀ t ∈ transposePerm n a b, t < n := by
  intro t ht
  unfold transposePerm at ht
  obtain ⟨k, hk, rfl⟩ := List.mem_map.mp ht
  have hkn := List.mem_range.mp hk
  split_ifs <;> omega

theorem transposePerm_getD_swap (n a b i : Nat) (ha : a < n) (hb : b < n)
    (hab : a ≠ b) (hi : i < n) :
    (transposePerm n a b).getD (if i = a then b else if i = b then a else i) 0 = i := by
  have hk : (if i = a then b else if i = b then a else i) < n := by split_ifs <;> omega
  rw [transposePerm_getD n a b _ hk]
  split_ifs <;> omega

theorem valid_iff_perm_range (m : Matrix) (p : List Nat) :
    (m.size = p.length ∧ Matrix.permutation_valid p = true) ↔
      (p.length = m.size ∧ List.Perm p (List.range m.size)) := by
  constructor
  · rintro ⟨hlen, hval⟩
    have h := (Matrix.permutation_valid_iff p).mp hval
    rw [← hlen] at h
    exact ⟨hlen.symm, h⟩
  · rintro ⟨hlen, hperm⟩
    refine ⟨hlen.symm, (Matrix.permutation_valid_iff p).mpr ?_⟩
    rw [hlen]
    exact hperm

/-- Claim C6: permute_rows and permute_columns fail exactly when the
permutation is not a length-size bijection on 0..size; on a valid
permutation, row/column k of the input becomes row/column perm[k] of the
result; permuting by the identity permutation is a no-op, and permuting by
a transposition swaps exactly the two targeted rows/columns and changes no
other entry of the buffer. -/
theorem C6_permute (m : Matrix) (perm : List Nat) (hm : m.size ≤ 32)
    (htz : Matrix.tailZero m) :
    (m.permute_rows perm = none ↔
       ¬ (perm.length = m.size ∧ List.Perm perm (List.range m.size))) ∧
    (m.permute_columns perm = none ↔
       ¬ (perm.length = m.size ∧ List.Perm perm (List.range m.size))) ∧
    (∀ r, m.permute_rows perm = some r →
       ∀ k, k < m.size → ∀ j, j < m.size → r.get (perm.getD k 0) j = m.get k j) ∧
    (∀ r, m.permute_columns perm = some r →
       ∀ k, k < m.size → ∀ i, i < m.size → r.get i (perm.getD k 0) = m.get i k) ∧
    (∀ r, m.permute_rows (List.range m.size) = some r →
       ∀ i, i < 32 → ∀ j, j < 32 → r.get i j = m.get i j) ∧
    (∀ r, m.permute_columns (List.range m.size) = some r →
       ∀ i, i < 32 → ∀ j, j < 32 → r.get i j = m.get i j) ∧
    (∀ a b, a < m.size → b < m.size → a ≠ b →
       ∀ r, m.permute_rows (transposePerm m.size a b) = some r →
         ∀ i, i < 32 → ∀ j, j < 32 →
           r.get i j =
             if i = a then m.get b j else if i = b then m.get a j else m.get i j) ∧
    (∀ a b, a < m.size → b < m.size → a ≠ b →
       ∀ r, m.permute_columns (transposePerm m.size a b) = some r →
         ∀ i, i < 32 → ∀ j, j < 32 →
           r.get i j =
             if j = a then m.get i b else if j = b then m.get i a else m.get i j) := by
  refine ⟨?_, ?_, ?_, ?_, ?_, ?_, ?_, ?_⟩
  · unfold Matrix.permute_rows
    by_cases hcond : m.size = perm.length ∧ Matrix.permutation_valid perm
    · rw [if_pos hcond]
      constructor
      · intro h; cases h
      · intro hneg; exact absurd ((valid_iff_perm_range m perm).mp hcond) hneg
    · rw [if_neg hcond]
      constructor
      · intro _; exact fun hc => hcond ((valid_iff_perm_range m perm).mpr hc)
      · intro _; rfl
  · unfold Matrix.permute_columns
    by_cases hcond : m.size = perm.length ∧ Matrix.permutation_valid perm
    · rw [if_pos hcond]
      constructor
      · intro h; cases h
      · intro hneg; exact absurd ((valid_iff_perm_range m perm).mp hcond) hneg
    · rw [if_neg hcond]
      constructor
      · intro _; exact fun hc => hcond ((valid_iff_perm_range m perm).mpr hc)
      · intro _; rfl
  · intro r hr k hk j hj
    obtain ⟨hlen, hval, rfl⟩ := Matrix.permute_rows_some m perm r hr
    have hperm := ((valid_iff_perm_range m perm).mp ⟨hlen, hval⟩).2
    have hnd : perm.Nodup := hperm.nodup_iff.mpr (List.nodup_range _)
    rw [Matrix.applyRowWrites_get_target m hm perm hnd k (by omega) 0 (Matrix.new m.size) j
      (by omega)]
    rw [if_pos hj, Nat.zero_add]
  · intro r hr k hk i hi
    obtain ⟨hlen, hval, rfl⟩ := Matrix.permute_columns_some m perm r hr
    have hperm := ((valid_iff_perm_range m perm).mp ⟨hlen, hval⟩).2
    have hnd : perm.Nodup := hperm.nodup_iff.mpr (List.nodup_range _)
    have hall : ∀ t ∈ perm, t < 32 := by
      intro t ht
      have := List.mem_range.mp (hperm.mem_iff.mp ht)
      omega
    rw [Matrix.applyColWrites_get_target m perm hnd hall k (by omega) 0 (Matrix.new m.size) i]
    rw [if_pos hi, Nat.zero_add]
  · intro r hr i hi j hj
    obtain ⟨hlen, hval, rfl⟩ := Matrix.permute_rows_some m _ r hr
    by_cases hisize : i < m.size
    · have hgetD : (List.range m.size).getD i 0 = i := by
        rw [List.getD_eq_getElem _ 0 (by simpa using hisize)]
        simp
      have h := Matrix.applyRowWrites_get_target m hm (List.range m.size)
        (List.nodup_range _) i (by simpa using hisize) 0 (Matrix.new m.size) j hj
      rw [hgetD] at h
      rw [h, Nat.zero_add]
      by_cases hjsize : j < m.size
      · rw [if_pos hjsize]
      · rw [if_neg hjsize, Matrix.get_new]
        exact (htz i hi j hj (Or.inr (by omega))).symm
    · have hnm : i ∉ List.range m.size := by simpa using hisize
      rw [Matrix.applyRowWrites_get_not_mem m hm _ 0 _ i j hj hnm, Matrix.get_new]
      exact (htz i hi j hj (Or.inl (by omega))).symm
  · intro r hr i hi j hj
    obtain ⟨hlen, hval, rfl⟩ := Matrix.permute_columns_some m _ r hr
    have hall : ∀ t ∈ List.range m.size, t < 32 := by
      intro t ht
      have := List.mem_range.mp ht
      omega
    by_cases hjsize : j < m.size
    · have hgetD : (List.range m.size).getD j 0 = j := by
        rw [List.getD_eq_getElem _ 0 (by simpa using hjsize)]
        simp
      have h := Matrix.applyColWrites_get_target m (List.range m.size)
        (List.nodup_range _) hall j (by simpa using hjsize) 0 (Matrix.new m.size) i
      rw [hgetD] at h
      rw [h, Nat.zero_add]
      by_cases hisize : i < m.size
      · rw [if_pos hisize]
      · rw [if_neg hisize, Matrix.get_new]
        exact (htz i hi j hj (Or.inl (by omega))).symm
    · have hnm : j ∉ List.range m.size := by simpa using hjsize
      rw [Matrix.applyColWrites_get_not_mem m _ hall 0 _ i j hj hnm, Matrix.get_new]
      exact (htz i hi j hj (Or.inr (by omega))).symm
  · intro a b ha hb hab r hr i hi j hj
    obtain ⟨hlen, hval, rfl⟩ := Matrix.permute_rows_some m _ r hr
    have hperm := ((valid_iff_perm_range m _).mp ⟨hlen, hval⟩).2
    have hnd : (transposePerm m.size a b).Nodup :=
      hperm.nodup_iff.mpr (List.nodup_range _)
    by_cases hisize : i < m.size
    · have hkn : (if i = a then b else if i = b then a else i) < m.size := by
        split_ifs <;> omega
      have hgd := transposePerm_getD_swap m.size a b i ha hb hab hisize
      have h := Matrix.applyRowWrites_get_target m hm (transposePerm m.size a b)
        hnd (if i = a then b else if i = b then a else i)
        (by rw [transposePerm_length]; exact hkn) 0 (Matrix.new m.size) j hj
      rw [hgd] at h
      rw [h, Nat.zero_add]
      by_cases hjsize : j < m.size
      · rw [if_pos hjsize]
        split_ifs <;> rfl
      · rw [if_neg hjsize, Matrix.get_new]
        split_ifs
        · exact (htz b (by omega) j hj (Or.inr (by omega))).symm
        · exact (htz a (by omega) j hj (Or.inr (by omega))).symm
        · exact (htz i hi j hj (Or.inr (by omega))).symm
    · have hnm : i ∉ transposePerm m.size a b := fun hmem =>
        absurd (transposePerm_lt m.size a b ha hb i hmem) (by omega)
      rw [Matrix.applyRowWrites_get_not_mem m hm _ 0 _ i j hj hnm, Matrix.get_new]
      rw [if_neg (by omega), if_neg (by omega)]
      exact (htz i hi j hj (Or.inl (by omega))).symm
  · intro a b ha hb hab r hr i hi j hj
    obtain ⟨hlen, hval, rfl⟩ := Matrix.permute_columns_some m _ r hr
    have hperm := ((valid_iff_perm_range m _).mp ⟨hlen, hval⟩).2
    have hnd : (transposePerm m.size a b).Nodup :=
      hperm.nodup_iff.mpr (List.nodup_range _)
    have hall : ∀ t ∈ transposePerm m.size a b, t < 32 := by
      intro t ht
      have := transposePerm_lt m.size a b ha hb t ht
      omega
    by_cases hjsize : j < m.size
    · have hkn : (if j = a then b else if j = b then a else j) < m.size := by
        split_ifs <;> omega
      have hgd := transposePerm_getD_swap m.size a b j ha hb hab hjsize
      have h := Matrix.applyColWrites_get_target m (transposePerm m.size a b)
        hnd hall (if j = a then b else if j = b then a else j)
        (by rw [transposePerm_length]; exact hkn) 0 (Matrix.new m.size) i
      rw [hgd] at h
      rw [h, Nat.zero_add]
      by_cases hisize : i < m.size
      · rw [if_pos hisize]
        split_ifs <;> rfl
      · rw [if_neg hisize, Matrix.get_new]
        split_ifs
        · exact (htz i hi b (by omega) (Or.inl (by omega))).symm
        · exact (htz i hi a (by omega) (Or.inl (by omega))).symm
        · exact (htz i hi j hj (Or.inl (by omega))).symm
    · have hnm : j ∉ transposePerm m.size a b := fun hmem =>
        absurd (transposePerm_lt m.size a b ha hb j hmem) (by omega)
      rw [Matrix.applyColWrites_get_not_mem m _ hall 0 _ i j hj hnm, Matrix.get_new]
      rw [if_neg (by omega), if_neg (by omega)]
      exact (htz i hi j hj (Or.inr (by omega))).symm

/-- Concrete 2×2 matrix used to instantiate the C6 theorem. -/
def C6m : Matrix := ((Matrix.new 2).set 0 0 ⟨1, 0⟩).set 1 1 ⟨2, 0⟩

theorem C6_witness :
    (C6m.permute_rows [1, 0] = none ↔
       ¬ ([1, 0].length = C6m.size ∧ List.Perm [1, 0] (List.range C6m.size))) ∧
    (C6m.permute_columns [1, 0] = none ↔
       ¬ ([1, 0].length = C6m.size ∧ List.Perm [1, 0] (List.range C6m.size))) ∧
    (∀ r, C6m.permute_rows [1, 0] = some r →
       ∀ k, k < C6m.size → ∀ j, j < C6m.size →
         r.get ([1, 0].getD k 0) j = C6m.get k j) ∧
    (∀ r, C6m.permute_columns [1, 0] = some r →
       ∀ k, k < C6m.size → ∀ i, i < C6m.size →
         r.get i ([1, 0].getD k 0) = C6m.get i k) ∧
    (∀ r, C6m.permute_rows (List.range C6m.size) = some r →
       ∀ i, i < 32 → ∀ j, j < 32 → r.get i j = C6m.get i j) ∧
    (∀ r, C6m.permute_columns (List.range C6m.size) = some r →
       ∀ i, i < 32 → ∀ j, j < 32 → r.get i j = C6m.get i j) ∧
    (∀ a b, a < C6m.size → b < C6m.size → a ≠ b →
       ∀ r, C6m.permute_rows (transposePerm C6m.size a b) = some r →
         ∀ i, i < 32 → ∀ j, j < 32 →
           r.get i j =
             if i = a then C6m.get b j
             else if i = b then C6m.get a j else C6m.get i j) ∧
    (∀ a b, a < C6m.size → b < C6m.size → a ≠ b →
       ∀ r, C6m.permute_columns (transposePerm C6m.size a b) = some r →
         ∀ i, i < 32 → ∀ j, j < 32 →
           r.get i j =
             if j = a then C6m.get i b
             else if j = b then C6m.get i a else C6m.get i j) :=
  C6_permute C6m [1, 0] (by decide) (by decide)

namespace Matrix

/-- The dot product loop of matrix.rs `Mul<&Vector>` (lines 277-285). -/
def dotRow (m : Matrix) (rhs : List Comp) (i : Nat) : Comp :=
  (List.range m.size).foldl (fun val k => val + m.get i k * rhs.getD k Comp.zero)
    Comp.zero

/-- matrix.rs `impl Mul<&Vector> for &Matrix` (lines 266-289): asserts every
vector component at index size..MAX_SIZE is zero, then fills the first
`size` output components with row dot products, leaving the rest zero. -/
def mulVector (m : Matrix) (rhs : List Comp) : Option (List Comp) :=
  if (List.range' m.size (MAX_SIZE - m.size)).all
      (fun t => Comp.zero == rhs.getD t Comp.zero) then
    some ((List.range MAX_SIZE).map fun i =>
      if i < m.size then dotRow m rhs i else Comp.zero)
  else none

/-- The standard matrix-vector product component: the sum over k < size of
m[(i, k)] * rhs[k]. -/
def specDot (m : Matrix) (rhs : List Comp) (i : Nat) : Comp :=
  ((List.range m.size).map (fun k => m.get i k * rhs.getD k Comp.zero)).sum

theorem foldl_add_map (f : Nat → Comp) :
    ∀ (l : List Nat) (z : Comp),
      l.foldl (fun a k => a + f k) z = z + (l.map f).sum := by
  intro l
  induction l with
  | nil => intro z; simp only [List.foldl_nil, List.map_nil, List.sum_nil]; exact (Comp.add_zero z).symm
  | cons k ks ih =>
    intro z
    simp only [List.foldl_cons, List.map_cons, List.sum_cons]
    rw [ih (z + f k), Comp.add_assoc]

theorem dotRow_eq_specDot (m : Matrix) (rhs : List Comp) (i : Nat) :
    dotRow m rhs i = specDot m rhs i := by
  unfold dotRow specDot
  rw [foldl_add_map]
  exact Comp.zero_add _

end Matrix

/-- Claim C7: multiplying a Matrix of size s by a length-MAX_SIZE amplitude
buffer fails if and only if some component of the vector at index ≥ s is
nonzero; otherwise it returns the standard matrix-vector product in the
first s components and zero in every component at index ≥ s. -/
theorem C7_mul_vector (m : Matrix) (rhs : List Comp) (hlen : rhs.length = 32) :
    (m.mulVector rhs = none ↔
      ∃ t, m.size ≤ t ∧ t < 32 ∧ rhs.getD t Comp.zero ≠ Comp.zero) ∧
    (∀ w, m.mulVector rhs = some w →
      w.length = 32 ∧
      (∀ i, i < m.size → i < 32 → w.getD i Comp.zero = Matrix.specDot m rhs i) ∧
      (∀ i, m.size ≤ i → i < 32 → w.getD i Comp.zero = Comp.zero)) := by
  constructor
  · unfold Matrix.mulVector
    by_cases hall : (List.range' m.size (MAX_SIZE - m.size)).all
        (fun t => Comp.zero == rhs.getD t Comp.zero)
    · rw [if_pos hall]
      constructor
      · intro h; cases h
      · rintro ⟨t, ht1, ht2, ht3⟩
        rcases le_or_lt m.size 32 with hs | hs
        · have hmem : t ∈ List.range' m.size (MAX_SIZE - m.size) := by
            rw [List.mem_range'_1]
            unfold MAX_SIZE
            omega
          have := List.all_eq_true.mp hall t hmem
          rw [beq_iff_eq] at this
          exact absurd this.symm ht3
        · omega
    · rw [if_neg hall]
      constructor
      · intro _
        rw [List.all_eq_true] at hall
        push_neg at hall
        obtain ⟨t, htm, htne⟩ := hall
        rw [List.mem_range'_1] at htm
        refine ⟨t, htm.1, by unfold MAX_SIZE at htm; omega, ?_⟩
        intro hcon
        exact htne (by rw [beq_iff_eq, hcon])
      · intro _; rfl
  · intro w hw
    unfold Matrix.mulVector at hw
    by_cases hall : (List.range' m.size (MAX_SIZE - m.size)).all
        (fun t => Comp.zero == rhs.getD t Comp.zero)
    · rw [if_pos hall] at hw
      obtain rfl := (Option.some.inj hw).symm
      refine ⟨by simp [MAX_SIZE], ?_, ?_⟩
      · intro i hi hi32
        rw [List.getD_eq_getElem _ _ (by simp [MAX_SIZE]; omega)]
        simp only [List.getElem_map, List.getElem_range]
        rw [if_pos hi]
        exact Matrix.dotRow_eq_specDot m rhs i
      · intro i hi hi32
        rw [List.getD_eq_getElem _ _ (by simp [MAX_SIZE]; omega)]
        simp only [List.getElem_map, List.getElem_range]
        rw [if_neg (by omega)]
    · rw [if_neg hall] at hw
      cases hw

/-- Concrete 1×1 matrix used to instantiate the C7 theorem. -/
def C7m : Matrix := (Matrix.new 1).set 0 0 ⟨2, 0⟩

/-- Concrete length-32 amplitude buffer used to instantiate the C7 theorem. -/
def C7v : List Comp := Comp.mk 3 0 :: List.replicate 31 Comp.zero

theorem C7_witness :
    (C7m.mulVector C7v = none ↔
      ∃ t, C7m.size ≤ t ∧ t < 32 ∧ C7v.getD t Comp.zero ≠ Comp.zero) ∧
    (∀ w, C7m.mulVector C7v = some w →
      w.length = 32 ∧
      (∀ i, i < C7m.size → i < 32 → w.getD i Comp.zero = Matrix.specDot C7m C7v i) ∧
      (∀ i, C7m.size ≤ i → i < 32 → w.getD i Comp.zero = Comp.zero)) :=
  C7_mul_vector C7m C7v (by decide)

/-- ket.rs `Ket`: the active size plus the amplitude buffer (a
`[Complex; MAX_SIZE]` array, modelled as a length-32 list). -/
structure Ket where
  size : Nat
  elements : List Comp

namespace Ket

/-- ket.rs `Ket::new`: a zero-initialized ket of given size. -/
def new (size : Nat) : Ket := ⟨size, List.replicate MAX_SIZE Comp.zero⟩

/-- ket.rs `Ket::size` (the static method): ket size 2^width for a register
width. -/
def size_for_width (register_width : Nat) : Nat := 2 ^ register_width

/-- ket.rs `Ket::from_classical`: a single basis vector, amplitude one at
index register.state().  (For widths > 5 the Rust array write would panic;
no claim exercises that case.) -/
def from_classical (register : ClassicalRegister) : Ket :=
  let k := new (size_for_width (ClassicalRegister.width register))
  ⟨k.size, k.elements.set (ClassicalRegister.stateNat register) Comp.one⟩

/-- The sum loop of ket.rs `Ket::is_valid` (lines 54-58). -/
def sampleSpaceSum (k : Ket) : ℚ :=
  k.elements.foldl (fun acc c => acc + Comp.norm_sqr c) 0

/-- ket.rs `Ket::is_valid`: the sample-space sum approx-equals 1.  The f64
ULP comparison (`approx_eq_ulps(&1.0, 10)`) has no rational counterpart, so
the comparison against 1 is the explicit parameter `approxOne`. -/
def is_valid (approxOne : ℚ → Bool) (k : Ket) : Bool :=
  approxOne (sampleSpaceSum k)

/-- ket.rs `Ket::is_classical` (lines 68-86): asserts `is_valid`, then
counts the amplitudes exactly equal to `Complex::zero()`, exactly equal to
`Complex::one()`, and all others, returning `1 == ones && 0 == others`. -/
def is_classical (approxOne : ℚ → Bool) (k : Ket) : Option Bool :=
  if is_valid approxOne k then
    some (decide
      (k.elements.countP (fun c => !(Comp.zero == c) && (Comp.one == c)) = 1 ∧
       k.elements.countP (fun c => !(Comp.zero == c) && !(Comp.one == c)) = 0))
  else none

end Ket

/-- gate.rs `Gate`: a declared qubit width plus the transformation matrix. -/
structure Gate where
  width : Nat
  matrix : Matrix

/-- gate.rs `Gate::new`: asserts `Ket::size(width) == matrix.size()`. -/
def Gate.new (width : Nat) (matrix : Matrix) : Option Gate :=
  if Ket.size_for_width width = matrix.size then some ⟨width, matrix⟩ else none

/-- ket.rs `Ket::apply`: replace the amplitude buffer with
`gate.matrix() * elements` (matrix-vector multiply, which asserts the
buffer tail beyond matrix.size is zero). -/
def Ket.apply (k : Ket) (gate : Gate) : Option Ket :=
  (Matrix.mulVector gate.matrix k.elements).map (fun el => ⟨k.size, el⟩)

/-- registers.rs `QuantumRegister`: width, one-shot collapsed flag, ket. -/
structure QuantumRegister where
  width : Nat
  collapsed : Bool
  ket : Ket

namespace QuantumRegister

/-- registers.rs `QuantumRegister::new`: asserts width == initial.width(). -/
def new (width : Nat) (initial : ClassicalRegister) : Option QuantumRegister :=
  if width = ClassicalRegister.width initial then
    some ⟨width, false, Ket.from_classical initial⟩
  else none

/-- registers.rs `QuantumRegister::apply` (lines 60-65): asserts not
collapsed and width equality, then applies the gate to the ket. -/
def apply (r : QuantumRegister) (gate : Gate) : Option QuantumRegister :=
  if r.collapsed then none
  else if r.width = gate.width then
    (r.ket.apply gate).map (fun kt => ⟨r.width, false, kt⟩)
  else none

/-- The loop of registers.rs `QuantumRegister::collapse` (lines 82-94):
walk the ket elements accumulating norm_sqr into cumulative, returning
from_state(width, state) at the first state with sample < cumulative, and
from_state(width, 0) after the loop (the floating-point fallback). -/
def collapseWalk (width : Nat) (sample : ℚ) :
    ℚ → Nat → List Comp → Option ClassicalRegister
  | _, _, [] => ClassicalRegister.from_state width 0
  | cumulative, state, c :: rest =>
    if sample < cumulative + Comp.norm_sqr c then
      ClassicalRegister.from_state width state
    else collapseWalk width sample (cumulative + Comp.norm_sqr c) (state + 1) rest

/-- registers.rs `QuantumRegister::collapse` (lines 70-95): asserts not yet
collapsed (on violation the register is unchanged and no result is
produced), then sets collapsed = true BEFORE computing the result, and
walks the ket.  The single uniform random draw
`rand::random::<f64>() % 1.0` is the explicit `sample` argument. -/
def collapse (r : QuantumRegister) (sample : ℚ) :
    QuantumRegister × Option ClassicalRegister :=
  if r.collapsed then (r, none)
  else (⟨r.width, true, r.ket⟩, collapseWalk r.width sample 0 0 r.ket.elements)

end QuantumRegister

/-- The cumulative probability of the first s ket amplitudes. -/
def cumulativeProb (elems : List Comp) (s : Nat) : ℚ :=
  ((elems.take s).map Comp.norm_sqr).sum

/-- The first index s with sample < cumulative probability through index s. -/
def firstHit (elems : List Comp) (sample : ℚ) : Option Nat :=
  (List.range elems.length).find?
    (fun s => decide (sample < cumulativeProb elems (s + 1)))

theorem cumulativeProb_cons (c : Comp) (rest : List Comp) (s : Nat) :
    cumulativeProb (c :: rest) (s + 1) = Comp.norm_sqr c + cumulativeProb rest s := by
  simp [cumulativeProb]

theorem find?_map_succ (p : Nat → Bool) :
    ∀ l : List Nat,
      (l.map (· + 1)).find? p = (l.find? (fun t => p (t + 1))).map (· + 1) := by
  intro l
  induction l with
  | nil => rfl
  | cons a l ih =>
    by_cases h : p (a + 1)
    · simp only [List.map_cons]
      rw [List.find?_cons_of_pos _ h]
      rw [show (a :: l).find? (fun t => p (t + 1)) = some a from
        List.find?_cons_of_pos _ h]
      rfl
    · simp only [List.map_cons]
      rw [List.find?_cons_of_neg _ h]
      rw [show (a :: l).find? (fun t => p (t + 1)) = l.find? (fun t => p (t + 1)) from
        List.find?_cons_of_neg _ h]
      exact ih

theorem find?_range_succ (n : Nat) (p : Nat → Bool) :
    (List.range (n + 1)).find? p =
      if p 0 then some 0
      else ((List.range n).find? (fun t => p (t + 1))).map (· + 1) := by
  rw [List.range_succ_eq_map]
  by_cases h : p 0
  · rw [List.find?_cons_of_pos _ h, if_pos h]
  · rw [List.find?_cons_of_neg _ h, if_neg h]
    exact find?_map_succ p (List.range n)

theorem find?_range_succ2 (n : Nat) (p q : Nat → Bool)
    (hpq : ∀ t, p (t + 1) = q t) :
    (List.range (n + 1)).find? p =
      if p 0 then some 0 else ((List.range n).find? q).map (· + 1) := by
  rw [find?_range_succ]
  have hfq : (fun t => p (t + 1)) = q := by funext t; exact hpq t
  rw [hfq]

theorem collapseWalk_eq (width : Nat) (sample : ℚ) :
    ∀ (elems : List Comp) (c0 : ℚ) (s0 : Nat),
      QuantumRegister.collapseWalk width sample c0 s0 elems =
        match (List.range elems.length).find?
            (fun t => decide (sample < c0 + cumulativeProb elems (t + 1))) with
        | some t => ClassicalRegister.from_state width (s0 + t)
        | none => ClassicalRegister.from_state width 0 := by
  intro elems
  induction elems with
  | nil => intro c0 s0; rfl
  | cons c rest ih =>
    intro c0 s0
    have hstep : QuantumRegister.collapseWalk width sample c0 s0 (c :: rest) =
        if sample < c0 + Comp.norm_sqr c then
          ClassicalRegister.from_state width s0
        else QuantumRegister.collapseWalk width sample
          (c0 + Comp.norm_sqr c) (s0 + 1) rest := rfl
    have hlen : (c :: rest).length = rest.length + 1 := rfl
    have hcum0 : cumulativeProb (c :: rest) (0 + 1) = Comp.norm_sqr c := by
      rw [cumulativeProb_cons]
      simp [cumulativeProb]
    have hpq : ∀ t,
        (fun t => decide (sample < c0 + cumulativeProb (c :: rest) (t + 1))) (t + 1) =
        (fun t => decide (sample < c0 + Comp.norm_sqr c + cumulativeProb rest (t + 1))) t := by
      intro t
      show decide (sample < c0 + cumulativeProb (c :: rest) (t + 1 + 1)) = _
      rw [cumulativeProb_cons]
      have harr : c0 + (Comp.norm_sqr c + cumulativeProb rest (t + 1)) =
          c0 + Comp.norm_sqr c + cumulativeProb rest (t + 1) := by ring
      rw [harr]
    rw [hstep, hlen, find?_range_succ2 rest.length _ _ hpq]
    by_cases h : sample < c0 + Comp.norm_sqr c
    · rw [if_pos h]
      rw [if_pos (show
          (fun t => decide (sample < c0 + cumulativeProb (c :: rest) (t + 1))) 0 = true from by
        show decide (sample < c0 + cumulativeProb (c :: rest) (0 + 1)) = true
        rw [hcum0]
        exact decide_eq_true h)]
      simp
    · rw [if_neg h]
      rw [if_neg (show
          ¬ (fun t => decide (sample < c0 + cumulativeProb (c :: rest) (t + 1))) 0 = true from by
        show ¬ decide (sample < c0 + cumulativeProb (c :: rest) (0 + 1)) = true
        rw [hcum0]
        simpa using h)]
      rw [ih (c0 + Comp.norm_sqr c) (s0 + 1)]
      cases hfind : (List.range rest.length).find?
          (fun t => decide (sample < c0 + Comp.norm_sqr c + cumulativeProb rest (t + 1))) with
      | none => simp
      | some t => simp [show s0 + 1 + t = s0 + (t + 1) from by omega]

/-- Claim C1: collapse on a not-yet-collapsed register draws one uniform
sample u in [0,1) (modelled as the explicit argument), walks the ket's
amplitude array in index order accumulating cumulative += |amplitude[s]|²,
and returns ClassicalRegister::from_state(width, s) for the first s with
u < cumulative; if no index satisfies the condition it returns
from_state(width, 0) instead of failing; and it sets collapsed = true
before computing the result (the post-state register is collapsed
regardless of how the result computation goes). -/
theorem C1_collapse (r : QuantumRegister) (u : ℚ) (h : r.collapsed = false) :
    ((r.collapse u).1.collapsed = true ∧
     (r.collapse u).1.width = r.width ∧
     (r.collapse u).1.ket = r.ket) ∧
    (r.collapse u).2 =
      (match firstHit r.ket.elements u with
       | some s => ClassicalRegister.from_state r.width s
       | none => ClassicalRegister.from_state r.width 0) := by
  unfold QuantumRegister.collapse
  rw [if_neg (by simp [h])]
  refine ⟨⟨rfl, rfl, rfl⟩, ?_⟩
  show QuantumRegister.collapseWalk r.width u 0 0 r.ket.elements = _
  rw [collapseWalk_eq]
  unfold firstHit
  have hzero : (fun t => decide (u < 0 + cumulativeProb r.ket.elements (t + 1))) =
      (fun t => decide (u < cumulativeProb r.ket.elements (t + 1))) := by
    funext t
    rw [zero_add]
  rw [hzero]
  cases hf : (List.range r.ket.elements.length).find?
      (fun t => decide (u < cumulativeProb r.ket.elements (t + 1))) with
  | none => rfl
  | some t => simp

/-- Register used to instantiate the C1 and C10 theorems: a fresh width-1
register initialized from the classical register [0]. -/
def C1r : QuantumRegister := ⟨1, false, Ket.from_classical [0]⟩

theorem C1_witness :
    ((C1r.collapse (1/2)).1.collapsed = true ∧
     (C1r.collapse (1/2)).1.width = C1r.width ∧
     (C1r.collapse (1/2)).1.ket = C1r.ket) ∧
    (C1r.collapse (1/2)).2 =
      (match firstHit C1r.ket.elements (1/2) with
       | some s => ClassicalRegister.from_state C1r.width s
       | none => ClassicalRegister.from_state C1r.width 0) :=
  C1_collapse C1r (1/2) (by decide)

theorem collapseWalk_from_state (width : Nat) (sample : ℚ) :
    ∀ (elems : List Comp) (c0 : ℚ) (s0 : Nat) (creg : ClassicalRegister),
      QuantumRegister.collapseWalk width sample c0 s0 elems = some creg →
      ∃ s, ClassicalRegister.from_state width s = some creg := by
  intro elems
  induction elems with
  | nil => intro c0 s0 creg h; exact ⟨0, h⟩
  | cons c rest ih =>
    intro c0 s0 creg h
    rw [show QuantumRegister.collapseWalk width sample c0 s0 (c :: rest) =
        if sample < c0 + Comp.norm_sqr c then
          ClassicalRegister.from_state width s0
        else QuantumRegister.collapseWalk width sample
          (c0 + Comp.norm_sqr c) (s0 + 1) rest from rfl] at h
    by_cases hc : sample < c0 + Comp.norm_sqr c
    · rw [if_pos hc] at h
      exact ⟨s0, h⟩
    · rw [if_neg hc] at h
      exact ih (c0 + Comp.norm_sqr c) (s0 + 1) creg h

theorem from_state_some_inv (width s : Nat) (creg : ClassicalRegister)
    (h : ClassicalRegister.from_state width s = some creg) :
    creg.length = width ∧ ClassicalRegister.stateNat creg = s ∧ s < 2 ^ width := by
  unfold ClassicalRegister.from_state at h
  by_cases hb : 2 ^ width ≤ u32Max
  · rw [show ClassicalRegister.pow2u32 width = some (2 ^ width) from by
      unfold ClassicalRegister.pow2u32; rw [if_pos hb]] at h
    dsimp only at h
    by_cases hs : s < 2 ^ width
    · rw [if_pos hs] at h
      obtain rfl : ClassicalRegister.fromStateLoop width [] s = creg := Option.some.inj h
      exact ⟨ClassicalRegister.length_fromStateLoop width s,
        ClassicalRegister.stateNat_fromStateLoop hs, hs⟩
    · rw [if_neg hs] at h
      cases h
  · rw [show ClassicalRegister.pow2u32 width = none from by
      unfold ClassicalRegister.pow2u32; rw [if_neg hb]] at h
    cases h

/-- Claim C10: every ClassicalRegister returned by QuantumRegister::collapse
(including via the floating-point fallback path) has width equal to the
register's width and state strictly less than 2^width. -/
theorem C10_collapse_result (r : QuantumRegister) (u : ℚ)
    (creg : ClassicalRegister)
    (h : (r.collapse u).2 = some creg) :
    ClassicalRegister.width creg = r.width ∧
      ClassicalRegister.stateNat creg < 2 ^ r.width := by
  unfold QuantumRegister.collapse at h
  by_cases hc : r.collapsed
  · rw [if_pos hc] at h
    cases h
  · rw [if_neg hc] at h
    replace h : QuantumRegister.collapseWalk r.width u 0 0 r.ket.elements = some creg := h
    obtain ⟨s, hs⟩ := collapseWalk_from_state r.width u r.ket.elements 0 0 creg h
    obtain ⟨hlen, _, hlt⟩ := from_state_some_inv r.width s creg hs
    exact ⟨hlen, by rw [(from_state_some_inv r.width s creg hs).2.1]; exact hlt⟩

theorem collapse_C1r_eval : (C1r.collapse (1/2)).2 = some [0] := by
  have h1 : (C1r.collapse (1/2)).2 =
      if (1/2 : ℚ) < 0 + Comp.norm_sqr Comp.one then
        ClassicalRegister.from_state 1 0
      else QuantumRegister.collapseWalk 1 (1/2) (0 + Comp.norm_sqr Comp.one) 1
        (List.replicate 31 Comp.zero) := rfl
  rw [h1, if_pos (by norm_num [Comp.norm_sqr, Comp.one])]
  decide

theorem C10_witness :
    (C1r.collapse (1/2)).2 = some [0] ∧
    ClassicalRegister.width [0] = C1r.width ∧
    ClassicalRegister.stateNat [0] < 2 ^ C1r.width :=
  ⟨collapse_C1r_eval, C10_collapse_result C1r (1/2) [0] collapse_C1r_eval⟩

/-- Claim C4: the collapsed flag transitions false → true exactly once and
never back: once collapsed, every collapse() and every apply(gate) call
fails and the register (in particular its ket) is left untouched; from the
non-collapsed state collapse marks the register collapsed without touching
the ket, and a successful apply leaves the register non-collapsed. -/
theorem C4_single_collapse (r : QuantumRegister) (g : Gate) (u : ℚ) :
    (r.collapsed = true →
      r.apply g = none ∧ r.collapse u = (r, none)) ∧
    (r.collapsed = false →
      (r.collapse u).1.collapsed = true ∧
      (r.collapse u).1.ket = r.ket ∧
      ∀ r2, r.apply g = some r2 → r2.collapsed = false) := by
  constructor
  · intro hc
    constructor
    · unfold QuantumRegister.apply
      rw [if_pos (by simp [hc])]
    · unfold QuantumRegister.collapse
      rw [if_pos (by simp [hc])]
  · intro hc
    refine ⟨?_, ?_, ?_⟩
    · unfold QuantumRegister.collapse
      rw [if_neg (by simp [hc])]
    · unfold QuantumRegister.collapse
      rw [if_neg (by simp [hc])]
    · intro r2 hr2
      unfold QuantumRegister.apply at hr2
      rw [if_neg (by simp [hc])] at hr2
      by_cases hw : r.width = g.width
      · rw [if_pos hw] at hr2
        cases hk : (r.ket.apply g) with
        | none => rw [hk] at hr2; cases hr2
        | some kt =>
          rw [hk] at hr2
          obtain rfl : (⟨r.width, false, kt⟩ : QuantumRegister) = r2 :=
            Option.some.inj hr2
          rfl
      · rw [if_neg hw] at hr2
        cases hr2

/-- Collapsed register used to instantiate the C4 theorem. -/
def C4r : QuantumRegister := ⟨1, true, Ket.from_classical [0]⟩

/-- Gate used to instantiate the C4 theorem. -/
def C4g : Gate := ⟨1, Matrix.new 2⟩

theorem C4_witness :
    C4r.collapsed = true ∧
    (C4r.apply C4g = none ∧ C4r.collapse (1/2) = (C4r, none)) :=
  ⟨by decide, (C4_single_collapse C4r C4g (1/2)).1 (by decide)⟩

/-- computer.rs `State`. -/
inductive CState where
  | Initializing
  | Running
  | Collapsed
deriving DecidableEq, Repr

/-- computer.rs `QuantumComputer`: lifecycle state, width, quantum register
and classical result register. -/
structure QuantumComputer where
  state : CState
  width : Nat
  register : QuantumRegister
  classical : ClassicalRegister

/-- computer.rs `QuantumComputer::reset` (lines 90-92): despite the doc
comment above it ("We panic if the state is anything other than
State::Collapsed"), the body contains no assert; it unconditionally sets
state = Initializing and leaves everything else untouched. -/
def QuantumComputer.reset (c : QuantumComputer) : QuantumComputer :=
  { c with state := CState.Initializing }

theorem countP_eq_one_iff (p : Comp → Bool) :
    ∀ l : List Comp, l.countP p = 1 ↔
      ∃ i, i < l.length ∧ p (l.getD i Comp.zero) = true ∧
        ∀ j, j < l.length → j ≠ i → p (l.getD j Comp.zero) = false := by
  intro l
  induction l with
  | nil => simp
  | cons c cs ih =>
    by_cases hc : p c
    · rw [List.countP_cons_of_pos p cs hc]
      constructor
      · intro h
        have hcs : cs.countP p = 0 := by omega
        refine ⟨0, by simp, by simpa using hc, ?_⟩
        intro j hj hj0
        cases j with
        | zero => exact absurd rfl hj0
        | succ j =>
          have hjlen : j < cs.length := by simpa using hj
          have hmem : cs.getD j Comp.zero ∈ cs := by
            rw [List.getD_eq_getElem _ _ hjlen]
            exact List.getElem_mem hjlen
          have hnp := List.countP_eq_zero.mp hcs _ hmem
          show p (cs.getD j Comp.zero) = false
          simpa using hnp
      · rintro ⟨i, hi, hpi, hall⟩
        have hi0 : i = 0 := by
          by_contra hne
          have h0 := hall 0 (by simp) (fun hcon => hne hcon.symm)
          rw [show (c :: cs).getD 0 Comp.zero = c from rfl] at h0
          rw [hc] at h0
          cases h0
        subst hi0
        have hcs : cs.countP p = 0 := by
          rw [List.countP_eq_zero]
          intro x hx
          obtain ⟨j, hjlen, rfl⟩ := List.mem_iff_getElem.mp hx
          have hj := hall (j + 1) (by simpa using hjlen) (by omega)
          rw [show (c :: cs).getD (j + 1) Comp.zero = cs.getD j Comp.zero from rfl] at hj
          rw [List.getD_eq_getElem _ _ hjlen] at hj
          simp [hj]
        omega
    · rw [List.countP_cons_of_neg p cs (by simpa using hc)]
      rw [ih]
      constructor
      · rintro ⟨i, hi, hpi, hall⟩
        refine ⟨i + 1, by simpa using hi, by simpa using hpi, ?_⟩
        intro j hj hji
        cases j with
        | zero =>
          show p c = false
          simpa using hc
        | succ j =>
          have := hall j (by simpa using hj) (by omega)
          simpa using this
      · rintro ⟨i, hi, hpi, hall⟩
        cases i with
        | zero =>
          rw [show (c :: cs).getD 0 Comp.zero = c from rfl] at hpi
          exact absurd hpi (by simpa using hc)
        | succ i =>
          refine ⟨i, by simpa using hi, by simpa using hpi, ?_⟩
          intro j hj hji
          have := hall (j + 1) (by simpa using hj) (by omega)
          simpa using this

theorem one_test_eq_true (c : Comp) :
    ((!(Comp.zero == c) && (Comp.one == c)) = true) ↔ c = Comp.one := by
  constructor
  · intro h
    simp only [Bool.and_eq_true, beq_iff_eq, Bool.not_eq_true'] at h
    exact h.2.symm
  · intro h
    subst h
    decide

theorem other_test_eq_false (c : Comp) :
    ((!(Comp.zero == c) && !(Comp.one == c)) = false) ↔
      (c = Comp.zero ∨ c = Comp.one) := by
  constructor
  · intro h
    by_cases hz : c = Comp.zero
    · exact Or.inl hz
    · by_cases ho : c = Comp.one
      · exact Or.inr ho
      · exfalso
        have hzb : (Comp.zero == c) = false := by
          rw [beq_eq_false_iff_ne]
          exact fun hcon => hz hcon.symm
        have hob : (Comp.one == c) = false := by
          rw [beq_eq_false_iff_ne]
          exact fun hcon => ho hcon.symm
        rw [hzb, hob] at h
        cases h
  · intro h
    rcases h with rfl | rfl
    · decide
    · decide

/-- Claim C8: Ket::is_classical fails (asserts) unless is_valid holds, and
otherwise returns true if and only if exactly one amplitude in the buffer
equals exactly Complex::one() and every other amplitude equals exactly
Complex::zero() — an exact equality check, not the approximate tolerance
used by is_valid (whose f64 ULP comparison is the abstract parameter
approxOne). -/
theorem C8_is_classical (approxOne : ℚ → Bool) (k : Ket) :
    (k.is_classical approxOne = none ↔ k.is_valid approxOne = false) ∧
    (∀ b, k.is_classical approxOne = some b →
      (b = true ↔
        ∃ i, i < k.elements.length ∧ k.elements.getD i Comp.zero = Comp.one ∧
          ∀ j, j < k.elements.length → j ≠ i →
            k.elements.getD j Comp.zero = Comp.zero)) := by
  constructor
  · unfold Ket.is_classical
    by_cases hv : k.is_valid approxOne
    · rw [if_pos hv]
      constructor
      · intro hcon; cases hcon
      · intro hfalse; rw [hv] at hfalse; cases hfalse
    · rw [if_neg hv]
      constructor
      · intro _; simpa using hv
      · intro _; rfl
  · intro b hb
    unfold Ket.is_classical at hb
    by_cases hv : k.is_valid approxOne
    · rw [if_pos hv] at hb
      obtain rfl : _ = b := Option.some.inj hb
      rw [decide_eq_true_eq]
      constructor
      · rintro ⟨h1, h0⟩
        obtain ⟨i, hi, hpi, hall⟩ := (countP_eq_one_iff _ k.elements).mp h1
        refine ⟨i, hi, (one_test_eq_true _).mp hpi, ?_⟩
        intro j hj hji
        have hpj := hall j hj hji
        have hjlen : j < k.elements.length := hj
        have hmem : k.elements.getD j Comp.zero ∈ k.elements := by
          rw [List.getD_eq_getElem _ _ hjlen]
          exact List.getElem_mem hjlen
        have h2 := List.countP_eq_zero.mp h0 _ hmem
        have h01 := (other_test_eq_false (k.elements.getD j Comp.zero)).mp
          (by simpa using h2)
        rcases h01 with hz | ho
        · exact hz
        · exfalso
          rw [ho] at hpj
          rw [(one_test_eq_true Comp.one).mpr rfl] at hpj
          cases hpj
      · rintro ⟨i, hi, hone, hzero⟩
        constructor
        · apply (countP_eq_one_iff _ k.elements).mpr
          refine ⟨i, hi, (one_test_eq_true _).mpr hone, ?_⟩
          intro j hj hji
          rw [hzero j hj hji]
          decide
        · rw [List.countP_eq_zero]
          intro x hx
          obtain ⟨j, hjlen, rfl⟩ := List.mem_iff_getElem.mp hx
          by_cases hji : j = i
          · have hone2 : k.elements[j] = Comp.one := by
              rw [← List.getD_eq_getElem k.elements Comp.zero hjlen, hji]
              exact hone
            rw [hone2]
            decide
          · have hz := hzero j hjlen hji
            rw [List.getD_eq_getElem _ _ hjlen] at hz
            rw [hz]
            decide
    · rw [if_neg hv] at hb
      cases hb

/-- Ket used to instantiate the C8 theorem: the basis ket built from the
classical register [0]. -/
def C8k : Ket := Ket.from_classical [0]

/-- Comparison oracle used to instantiate the C8 theorem: exact equality
with 1. -/
def C8approx : ℚ → Bool := fun q => q == 1

theorem C8_witness :
    (C8k.is_classical C8approx = none ↔ C8k.is_valid C8approx = false) ∧
    (∀ b, C8k.is_classical C8approx = some b →
      (b = true ↔
        ∃ i, i < C8k.elements.length ∧ C8k.elements.getD i Comp.zero = Comp.one ∧
          ∀ j, j < C8k.elements.length → j ≠ i →
            C8k.elements.getD j Comp.zero = Comp.zero)) :=
  C8_is_classical C8approx C8k

/-- Claim C5, code evaluation: reset() returns normally in EVERY state —
including Initializing and Running, where the claim (and the reset doc
comment) say it must fail — transitioning to Initializing and leaving both
stored registers untouched. -/
theorem C5_reset_no_precondition (c : QuantumComputer) :
    (QuantumComputer.reset c).state = CState.Initializing ∧
    (QuantumComputer.reset c).width = c.width ∧
    (QuantumComputer.reset c).register = c.register ∧
    (QuantumComputer.reset c).classical = c.classical :=
  ⟨rfl, rfl, rfl, rfl⟩

end Quantum
